import Mathlib

/-!
Verification development for the fhir-query traversal engine
(src/fhir_query/__init__.py).

The Python code is shallowly embedded: JSON documents become the mutual
inductive type JValue/JObj/JArr, the sqlite-backed ResourceDB becomes a
functional table of rows, the httpx network becomes an explicit server
oracle (a function from URL and attempt number to a response behaviour),
and the recursive coroutine functions execute_query / process_links become
fuel-indexed total functions whose result is none exactly when no finite
fuel suffices (i.e. when the source recursion does not terminate).
Observable actions (HTTP GETs, retry sleeps, chunk query dispatches and
join-key extractions) are recorded in an event trace so that the spec's
counting properties can be stated.
-/

/- JSON-like document values.  Numbers are modelled as integers and JSON
booleans are omitted: neither influences any of the traversal logic under
study.  Objects and arrays are mutual inductives (rather than using List)
so that all recursive functions below are structural and computable by the
kernel. -/
mutual
/-- JSON value: string, integer, null, object or array. -/
inductive JValue where
  | str (s : String)
  | num (n : Int)
  | null
  | obj (fs : JObj)
  | arr (es : JArr)
deriving DecidableEq
/-- JSON object: a finite map as a field list in document order. -/
inductive JObj where
  | nil
  | cons (k : String) (v : JValue) (tl : JObj)
deriving DecidableEq
/-- JSON array. -/
inductive JArr where
  | nil
  | cons (v : JValue) (tl : JArr)
deriving DecidableEq
end

/-- Python dict field access resource[k] (keys are unique in a parsed JSON
object, so first match suffices). -/
def JObj.lookup (k : String) : JObj → Option JValue
  | .nil => none
  | .cons k' v tl => if k' = k then some v else JObj.lookup k tl

/-- Python `k in resource`. -/
def JObj.hasField (o : JObj) (k : String) : Bool :=
  (o.lookup k).isSome

/-- Array indexing, as used by dotty for numeric path components. -/
def JArr.get? : JArr → Nat → Option JValue
  | .nil, _ => none
  | .cons v _, 0 => some v
  | .cons _ tl, n + 1 => JArr.get? tl n

/-- One row of the sqlite `resources` table.  The derived `key` column
(f"type/id") is not modelled: nothing in the code under study reads it. -/
structure Row where
  id : JValue
  resource_type : JValue
  resource : JObj
deriving DecidableEq

/-- The sqlite-backed store of ResourceDB: rows in insertion order plus the
per-type diagnostic counters `adds_counters`. -/
structure ResourceDB where
  rows : List Row
  adds_counters : List (JValue × Nat)
deriving DecidableEq

/-- Whether a row with PRIMARY KEY (id, resource_type) is already stored. -/
def ResourceDB.hasKey (db : ResourceDB) (id resource_type : JValue) : Bool :=
  db.rows.any fun row => row.id == id && row.resource_type == resource_type

/-- defaultdict(int) increment for adds_counters. -/
def bumpCounter : List (JValue × Nat) → JValue → List (JValue × Nat)
  | [], t => [(t, 1)]
  | (t', n) :: rest, t =>
    if t' == t then (t', n + 1) :: rest else (t', n) :: bumpCounter rest t

/-- ResourceDB.add.  Validation failure returns the ValueError message and
leaves the table untouched; a PRIMARY KEY collision raises
sqlite3.IntegrityError inside the INSERT, which the code swallows, so the
row and the counter are both unchanged; otherwise the row is appended and
the per-type counter incremented. -/
def ResourceDB.add (db : ResourceDB) (resource : JObj) : ResourceDB × Option String :=
  if resource.hasField "id" && resource.hasField "resourceType" then
    let id := (resource.lookup "id").getD .null
    let resource_type := (resource.lookup "resourceType").getD .null
    if db.hasKey id resource_type then
      (db, none)
    else
      ({ rows := db.rows ++ [⟨id, resource_type, resource⟩],
         adds_counters := bumpCounter db.adds_counters resource_type }, none)
  else
    (db, some "Resource must contain 'id' and 'resourceType' fields.")

/-- ResourceDB.all_resources: all stored documents of a type, in storage
order. -/
def ResourceDB.all_resources (db : ResourceDB) (resource_type : JValue) : List JObj :=
  (db.rows.filter fun row => row.resource_type == resource_type).map Row.resource

/-- The distinct stored resource types, in first-appearance order (a
determinisation of sqlite's GROUP BY output order). -/
def ResourceDB.resource_types (db : ResourceDB) : List JValue :=
  db.rows.foldl
    (fun acc row => if acc.contains row.resource_type then acc else acc ++ [row.resource_type]) []

/-- ResourceDB.count_resource_types. -/
def ResourceDB.count_resource_types (db : ResourceDB) : List (JValue × Nat) :=
  db.resource_types.map fun t =>
    (t, (db.rows.filter fun row => row.resource_type == t).length)

/- nested_lookup key document: every value stored under a field named
`key` anywhere in the document, in document order; when a matching value is
itself an object or an array the search also continues inside it. -/
mutual
/-- nested_lookup on a value: descend into objects and arrays. -/
def nested_lookup (key : String) : JValue → List JValue
  | .obj fs => nested_lookup_obj key fs
  | .arr es => nested_lookup_arr key es
  | _ => []
def nested_lookup_obj (key : String) : JObj → List JValue
  | .nil => []
  | .cons k v tl =>
    (if k = key then [v] else []) ++
    (match v with
     | .obj _ => nested_lookup key v
     | .arr _ => nested_lookup key v
     | _ => []) ++ nested_lookup_obj key tl
def nested_lookup_arr (key : String) : JArr → List JValue
  | .nil => []
  | .cons v tl => nested_lookup key v ++ nested_lookup_arr key tl
end

/-- Characters of a string up to the first slash: ref.split("/")[0]. -/
def headUntilSlash : List Char → List Char
  | [] => []
  | c :: cs => if c = '/' then [] else c :: headUntilSlash cs

/-- The referenced resource type in a "Type/id"-shaped reference value.
A codeable reference (a dict) is first unwrapped through its "reference"
field.  Shapes on which the Python would raise (a list, a missing
"reference" field, a non-string after unwrapping) yield none. -/
def refTargetType : JValue → Option String
  | .str s => some ⟨headUntilSlash s.data⟩
  | .obj fs =>
    match fs.lookup "reference" with
    | some (.str s) => some ⟨headUntilSlash s.data⟩
    | _ => none
  | _ => none

/-- Counts with first-appearance insertion order, as a defaultdict built by
repeated increments. -/
def countRefs (refs : List String) : List (String × Nat) :=
  (refs.foldl (fun acc s => if acc.contains s then acc else acc ++ [s]) []).map
    fun s => (s, refs.count s)

/-- Per-type aggregate: resource count and reference counts per referenced
type.  An absent "references" key in the Python summary is represented by
the empty list. -/
structure TypeSummary where
  count : Nat
  references : List (String × Nat)
deriving DecidableEq

/-- ResourceDB.aggregate: for every stored type, the resource count and the
per-referenced-type counts of every nested "reference" value. -/
def ResourceDB.aggregate (db : ResourceDB) : List (JValue × TypeSummary) :=
  db.resource_types.map fun t =>
    let resources := db.all_resources t
    let refs := resources.flatMap fun r =>
      (nested_lookup "reference" (.obj r)).filterMap refTargetType
    (t, ⟨resources.length, countRefs refs⟩)

/-- Python str.split(sep) for a one-character separator, accumulator form. -/
def splitOnCharAux (c : Char) : List Char → List Char → List String
  | [], acc => [⟨acc.reverse⟩]
  | x :: xs, acc =>
    if x = c then (⟨acc.reverse⟩ : String) :: splitOnCharAux c xs []
    else splitOnCharAux c xs (x :: acc)

/-- Python path.split("."), the path components dotty walks. -/
def splitOnChar (c : Char) (s : String) : List String :=
  splitOnCharAux c s.data []

/-- Python str.endswith(suffix). -/
def strEndsWith (s suffix : String) : Bool :=
  suffix.data.reverse.isPrefixOf s.data.reverse

/-- Python str.replace(pat, repl) on character lists: leftmost,
non-overlapping.  The fuel argument starts at the string length and counts
down at least as fast as characters are consumed, so that fuel is never
exhausted on a real input; an empty pattern (which the code never uses:
the pattern is always "\x7bpath\x7d") degenerates to the identity. -/
def replaceAux (pat repl : List Char) : Nat → List Char → List Char
  | _, [] => []
  | 0, l => l
  | f + 1, c :: cs =>
    if pat.isPrefixOf (c :: cs) && !pat.isEmpty then
      repl ++ replaceAux pat repl f (List.drop (pat.length - 1) cs)
    else
      c :: replaceAux pat repl f cs

/-- Python params.replace(pat, repl). -/
def strReplace (s pat repl : String) : String :=
  ⟨replaceAux pat.data repl.data s.data.length s.data⟩

/-- Whether a dotty path component addresses a list index. -/
def isDigits (l : List Char) : Bool :=
  !l.isEmpty && l.all Char.isDigit

/-- Numeric value of a digit-only path component. -/
def digitsToNat (l : List Char) : Nat :=
  l.foldl (fun n c => n * 10 + (c.toNat - '0'.toNat)) 0

/-- dotty_dict lookup: walk the split path through nested objects (and
through arrays at numeric components).  none models both `path not in
parent` and a failing access. -/
def dottyGet : List String → JValue → Option JValue
  | [], v => some v
  | k :: ks, .obj fs =>
    match fs.lookup k with
    | some v => dottyGet ks v
    | none => none
  | k :: ks, .arr es =>
    if isDigits k.data then
      match es.get? (digitsToNat k.data) with
      | some v => dottyGet ks v
      | none => none
    else none
  | _ :: _, _ => none

/-- One link of the GraphDefinition: required sourceId and targetId,
optional path and params. -/
structure Link where
  sourceId : String
  targetId : String
  path : Option String
  params : Option String
deriving DecidableEq

/-- The Visit Record triple (resource["resourceType"], resource["id"],
targetId) stored in the visited set. -/
abbrev VisitKey := JValue × JValue × String

/-- Observable actions of a traversal, recorded in program order: an HTTP
GET attempt, a retry sleep (seconds), the dispatch of one chunk query, and
the extraction of a join key from a not-yet-visited frontier resource. -/
inductive Event where
  | get (url : String)
  | sleep (seconds : Nat)
  | dispatch (url : String)
  | extract (key : VisitKey)
deriving DecidableEq

/-- Errors that propagate out of the coroutines: a non-timeout HTTP/
transport failure (raise_for_status or a transport error other than
ConnectTimeout/ReadTimeout), the ValueError of ResourceDB.add, and the
AssertionError of the `assert path` in process_links. -/
inductive QErr where
  | http (code : Nat)
  | validation (msg : String)
  | assertionFailed (msg : String)
deriving DecidableEq

/-- The mutable state threaded through a traversal run: the store, the
visited set (a list with set membership semantics) and the event trace. -/
structure RunState where
  db : ResourceDB
  visited : List VisitKey
  events : List Event
deriving DecidableEq

/-- Append one observable event. -/
def logEvent (st : RunState) (e : Event) : RunState :=
  { st with events := st.events ++ [e] }

/-- What the remote server does with one GET: time out, fail fatally
(non-timeout transport error or non-2xx status), or answer a page of
resources (each entry's "resource" field) with an optional next link. -/
inductive Behavior where
  | timeout
  | failure (code : Nat)
  | page (entries : List JObj) (next : Option String)

/-- The network oracle: behaviour per URL and per attempt index within one
retry loop. -/
abbrev Server := String → Nat → Behavior

/-- The `self.add(entry["resource"])` loop over a page: stops at the first
ValueError, which propagates out of execute_query uncaught. -/
def addEntries : ResourceDB → List JObj → Except QErr ResourceDB
  | db, [] => .ok db
  | db, r :: rs =>
    match ResourceDB.add db r with
    | (db', none) => addEntries db' rs
    | (_, some msg) => .error (.validation msg)

/-- execute_query's retry loop.  tries is the remaining attempt budget
(max_retry = 3 at entry), attempt the index of the current attempt; a
timeout sleeps 5 seconds and retries the same URL, any other failure
propagates, and a page is stored, collected, and extended with the
recursively fetched "next" pages (each with a fresh retry budget).  fuel
bounds the recursion depth; none means the bound was hit. -/
def execute_query_loop (server : Server) :
    Nat → Nat → Nat → String → RunState → Option (Except QErr (RunState × List JObj))
  | _, 0, _, _, st => some (.ok (st, []))
  | 0, _ + 1, _, _, _ => none
  | fuel + 1, tries + 1, attempt, query_url, st =>
    let st1 := logEvent st (.get query_url)
    match server query_url attempt with
    | .timeout =>
      execute_query_loop server fuel tries (attempt + 1) query_url (logEvent st1 (.sleep 5))
    | .failure code => some (.error (.http code))
    | .page entries next =>
      match addEntries st1.db entries with
      | .error e => some (.error e)
      | .ok db' =>
        let st2 := { st1 with db := db' }
        match next with
        | none => some (.ok (st2, entries))
        | some next_url =>
          match execute_query_loop server fuel 3 0 next_url st2 with
          | none => none
          | some (.error e) => some (.error e)
          | some (.ok (st3, more)) => some (.ok (st3, entries ++ more))

/-- GraphDefinitionRunner.execute_query: the retry loop entered with
retry = 0 and max_retry = 3. -/
def execute_query (server : Server) (fuel : Nat) (query_url : String) (st : RunState) :
    Option (Except QErr (RunState × List JObj)) :=
  execute_query_loop server fuel 3 0 query_url st

/-- The `_path = source_id + "/" + _path` qualification applied when the
link path ends in ".id" (on a non-string the Python raises; unmodelled). -/
def qualifyJoinKey (source_id : String) : JValue → JValue
  | .str s => .str (source_id ++ "/" ++ s)
  | v => v

/-- The frontier scan of process_links for one link with params: walk
parent_resources; for each resource whose resourceType equals the link's
sourceId, build the Visit Record, skip it if visited, otherwise mark it
visited FIRST and only then evaluate the path against the full wrapped
resource; a missing path contributes nothing (the resource stays visited),
a found value is qualified when the path ends in ".id" and inserted into
the candidate set (insertion-order deduplication models the Python set).
A link with params but no path hits `assert path`.  Returns the grown
visited set, the candidate join keys, and the extraction log appended with
the keys whose join key was actually extracted. -/
def collect_current_path (link : Link) :
    List JObj → List VisitKey → List JValue → List VisitKey →
    Except QErr (List VisitKey × List JValue × List VisitKey)
  | [], visited, current_path, extracted => .ok (visited, current_path, extracted)
  | r :: rest, visited, current_path, extracted =>
    if (r.lookup "resourceType").getD .null == JValue.str link.sourceId then
      let key : VisitKey := (.str link.sourceId, (r.lookup "id").getD .null, link.targetId)
      if visited.contains key then
        collect_current_path link rest visited current_path extracted
      else
        let visited' := key :: visited
        match link.path with
        | none => .error (.assertionFailed "Path is required")
        | some path =>
          match dottyGet (splitOnChar '.' path) (.obj (.cons link.sourceId (.obj r) .nil)) with
          | none => collect_current_path link rest visited' current_path extracted
          | some v =>
            let v' := if strEndsWith path ".id" then qualifyJoinKey link.sourceId v else v
            collect_current_path link rest visited'
              (if current_path.contains v' then current_path else current_path ++ [v'])
              (extracted ++ [key])
    else
      collect_current_path link rest visited current_path extracted

/-- The chunk list [l[i:i+n] for i in range(0, len(l), n)]. -/
def rangeChunks {α : Type} (l : List α) (n : Nat) : List (List α) :=
  (List.range ((l.length + n - 1) / n)).map fun j => (l.drop (j * n)).take n

/-- The chunking of process_links: chunks = [current_path], replaced by
50-sized slices only when the candidate list is longer than 50.  In
particular an empty candidate list yields the single empty chunk. -/
def mkChunks {α : Type} (l : List α) : List (List α) :=
  if l.length > 50 then rangeChunks l 50 else [l]

/-- Python ",".join over join-key values; a non-string value would raise
TypeError in the source (unmodelled) and is rendered as the empty string. -/
def renderValue : JValue → String
  | .str s => s
  | _ => ""

/-- The chunk query URL: f"{base}/{targetId}?{params}" with "\x7bpath\x7d"
replaced by the comma-joined chunk. -/
def chunk_query_url (fhir_base_url : String) (link : Link) (params : String)
    (chunk : List JValue) : String :=
  fhir_base_url ++ "/" ++ link.targetId ++ "?" ++
    strReplace params "{path}" (String.intercalate "," (chunk.map renderValue))

/-- Dispatch of the chunk queries of one link.  The asyncio tasks of one
link are awaited in batches before the engine proceeds, and execution is
single-threaded cooperative, so the model serialises them in dispatch
order; each dispatch is logged and then run through execute_query, whose
returned list is discarded (only its store writes matter). -/
def dispatch_chunks (server : Server) (fhir_base_url : String) (page_fuel : Nat)
    (link : Link) (params : String) :
    List (List JValue) → RunState → Option (Except QErr RunState)
  | [], st => some (.ok st)
  | chunk :: rest, st =>
    let query_url := chunk_query_url fhir_base_url link params chunk
    match execute_query server page_fuel query_url (logEvent st (.dispatch query_url)) with
    | none => none
    | some (.error e) => some (.error e)
    | some (.ok (st', _)) =>
      dispatch_chunks server fhir_base_url page_fuel link params rest st'

/-- The body of process_links for a single link: a link without params is
a pass-through (only logging); a link with params scans the frontier for
candidate join keys and dispatches one query per chunk. -/
def process_one_link (server : Server) (fhir_base_url : String) (page_fuel : Nat)
    (link : Link) (parent_resources : List JObj) (st : RunState) :
    Option (Except QErr RunState) :=
  match link.params with
  | none => some (.ok st)
  | some params =>
    match collect_current_path link parent_resources st.visited [] [] with
    | .error e => some (.error e)
    | .ok (visited', current_path, extracted) =>
      dispatch_chunks server fhir_base_url page_fuel link params (mkChunks current_path)
        { st with visited := visited',
                  events := st.events ++ extracted.map Event.extract }

/-- The loop of process_links over the links selected for the current
frontier type.  After each link the engine re-reads all stored resources
of the target type and, whenever the graph has any link out of the target
type, recurses into those links with the re-read set as the new frontier
— unconditionally, whether or not anything new was fetched.  fuel bounds
the number of loop steps and recursive calls; none means the bound was
hit, and a result of none at every fuel is the model of a run that never
terminates. -/
def process_links_loop (server : Server) (fhir_base_url : String) (graph : List Link)
    (page_fuel : Nat) :
    Nat → List Link → List JObj → RunState → Option (Except QErr RunState)
  | 0, _, _, _ => none
  | _ + 1, [], _, st => some (.ok st)
  | fuel + 1, link :: rest, parent_resources, st =>
    match process_one_link server fhir_base_url page_fuel link parent_resources st with
    | none => none
    | some (.error e) => some (.error e)
    | some (.ok st1) =>
      let query_results := st1.db.all_resources (.str link.targetId)
      let edges := graph.filter fun e => e.sourceId == link.targetId
      if edges.isEmpty then
        process_links_loop server fhir_base_url graph page_fuel fuel rest parent_resources st1
      else
        match process_links_loop server fhir_base_url graph page_fuel fuel edges query_results st1 with
        | none => none
        | some (.error e) => some (.error e)
        | some (.ok st2) =>
          process_links_loop server fhir_base_url graph page_fuel fuel rest parent_resources st2

/-- GraphDefinitionRunner.process_links: select every link whose sourceId
is the current frontier type and run the loop. -/
def process_links (server : Server) (fhir_base_url : String) (graph : List Link)
    (page_fuel fuel : Nat) (parent_target_id : String) (parent_resources : List JObj)
    (st : RunState) : Option (Except QErr RunState) :=
  process_links_loop server fhir_base_url graph page_fuel fuel
    (graph.filter fun l => l.sourceId == parent_target_id) parent_resources st

/-- The join-key extraction events of a trace, in order. -/
def extractsOf (events : List Event) : List VisitKey :=
  events.filterMap fun e =>
    match e with
    | .extract k => some k
    | _ => none

/-- The chunk-query dispatch events of a trace, in order. -/
def dispatchesOf (events : List Event) : List String :=
  events.filterMap fun e =>
    match e with
    | .dispatch url => some url
    | _ => none

/-- Both required fields of ResourceDB.add are present. -/
def wellFormedResource (r : JObj) : Bool :=
  r.hasField "id" && r.hasField "resourceType"

/-- The rows currently stored under the key (id, resource_type). -/
def rowsWithKey (db : ResourceDB) (id resource_type : JValue) : List Row :=
  db.rows.filter fun row => row.id == id && row.resource_type == resource_type

/-- The relation between the run state before and after a piece of the
traversal: the visited set only grows, the event trace is only appended
to, the newly logged join-key extractions are pairwise distinct, and each
of them was unvisited before and is visited afterwards. -/
def TraceStep (st st' : RunState) : Prop :=
  (∀ k, k ∈ st.visited → k ∈ st'.visited) ∧
  ∃ new, st'.events = st.events ++ new ∧
    (extractsOf new).Nodup ∧
    ∀ k ∈ extractsOf new, k ∉ st.visited ∧ k ∈ st'.visited

/-- Builds a JObj from an association list, for concrete instances. -/
def mkJObj (l : List (String × JValue)) : JObj :=
  l.foldr (fun kv o => JObj.cons kv.1 kv.2 o) .nil

/-- A cyclic Graph Description: Link A→B and Link B→A, both without
params (pass-through links). -/
def cyclicGraph : List Link :=
  [⟨"A", "B", none, none⟩, ⟨"B", "A", none, none⟩]

/-- A server that answers every query with one empty page. -/
def emptyPageServer : Server := fun _ _ => .page [] none

/-- The initial run state: empty store, empty visited set, empty trace. -/
def initialState : RunState := ⟨⟨[], []⟩, [], []⟩

/-- A one-link Graph Description A→B with a path and a params template. -/
def sampleLink : Link := ⟨"A", "B", some "A.f", some "subject={path}"⟩

/-- A frontier resource of type A carrying the join key under "f". -/
def sampleResource : JObj :=
  mkJObj [("resourceType", .str "A"), ("id", .str "1"), ("f", .str "X")]

/-- A frontier resource of type A on which the link path "A.f" is absent. -/
def pathlessResource : JObj :=
  mkJObj [("resourceType", .str "A"), ("id", .str "1")]

/-- A resource without "id" and "resourceType": ResourceDB.add rejects it. -/
def malformedResource : JObj := mkJObj [("foo", .null)]

/-- A server whose every page contains the malformed resource. -/
def malformedServer : Server := fun _ _ => .page [malformedResource] none

/-- A server that always times out. -/
def timeoutServer : Server := fun _ _ => .timeout

/-- A three-page result set: page1 → page2 → page3 linked via "next". -/
def threePageServer (e1 e2 e3 : List JObj) : Server := fun url _ =>
  if url = "page1" then .page e1 (some "page2")
  else if url = "page2" then .page e2 (some "page3")
  else if url = "page3" then .page e3 none
  else .timeout

/-- A Specimen resource whose subject refers to Patient/1. -/
def specimenResource (id : String) : JObj :=
  mkJObj [("resourceType", .str "Specimen"), ("id", .str id),
          ("subject", .obj (mkJObj [("reference", .str "Patient/1")]))]

/-- The store holding exactly the two Specimen resources. -/
def specimenDB : ResourceDB :=
  ((ResourceDB.add ⟨[], []⟩ (specimenResource "s1")).1.add (specimenResource "s2")).1

/-- A different payload under the same (id, type) key as sampleResource. -/
def sampleResourceAlt : JObj :=
  mkJObj [("resourceType", .str "A"), ("id", .str "1"), ("f", .str "Y")]

/-- A server that fails fatally (non-timeout) on every attempt. -/
def failingServer : Server := fun _ _ => .failure 500

/-- A small well-formed resource of type T for pagination instances. -/
def pageResource (id : String) : JObj :=
  mkJObj [("resourceType", .str "T"), ("id", .str id)]

/-- C8.  The store holds exactly 2 Specimen resources, each with
subject.reference "Patient/1", and aggregate returns the mapping
Specimen ↦ (count 2, references Patient ↦ count 2). -/
theorem aggregate_specimen_example :
    specimenDB.count_resource_types = [(.str "Specimen", 2)] ∧
    specimenDB.aggregate = [(.str "Specimen", ⟨2, [("Patient", 2)]⟩)] :=
  ⟨rfl, rfl⟩

/-- C4.  First write wins: inserting a well-formed resource under a fresh
key stores exactly one row, a second insert of the same resource is a
silent no-op, and a subsequent insert of a different payload under the
same key is a silent no-op leaving the stored payload unchanged. -/
theorem resourcedb_add_first_write_wins
    (db : ResourceDB) (r r' : JObj) (id resource_type : JValue)
    (hid : r.lookup "id" = some id) (hrt : r.lookup "resourceType" = some resource_type)
    (hid' : r'.lookup "id" = some id) (hrt' : r'.lookup "resourceType" = some resource_type)
    (hfresh : db.hasKey id resource_type = false) :
    (db.add r).2 = none ∧
    rowsWithKey (db.add r).1 id resource_type = [⟨id, resource_type, r⟩] ∧
    ((db.add r).1).add r = ((db.add r).1, none) ∧
    ((db.add r).1).add r' = ((db.add r).1, none) := by
  have hdb1 : db.add r =
      ({ rows := db.rows ++ [⟨id, resource_type, r⟩],
         adds_counters := bumpCounter db.adds_counters resource_type }, none) := by
    simp [ResourceDB.add, JObj.hasField, hid, hrt, hfresh]
  have hkey1 : (ResourceDB.hasKey
      { rows := db.rows ++ [⟨id, resource_type, r⟩],
        adds_counters := bumpCounter db.adds_counters resource_type } id resource_type) = true := by
    simp [ResourceDB.hasKey]
  have hnone : ∀ row ∈ db.rows, ¬(row.id == id && row.resource_type == resource_type) = true := by
    intro row hrow hcontra
    have hk : db.hasKey id resource_type = true := by
      simp only [ResourceDB.hasKey, List.any_eq_true]
      exact ⟨row, hrow, hcontra⟩
    rw [hk] at hfresh
    exact Bool.noConfusion hfresh
  refine ⟨by rw [hdb1], ?_, ?_, ?_⟩
  · rw [hdb1]
    simp only [rowsWithKey, List.filter_append]
    rw [List.filter_eq_nil_iff.mpr hnone]
    simp
  · rw [hdb1]
    simp [ResourceDB.add, JObj.hasField, hid, hrt, hkey1]
  · rw [hdb1]
    simp [ResourceDB.add, JObj.hasField, hid', hrt', hkey1]

/-- Witness for resourcedb_add_first_write_wins at a concrete store and
resources. -/
theorem resourcedb_add_first_write_wins_witness :
    ((⟨[], []⟩ : ResourceDB).add sampleResource).2 = none ∧
    rowsWithKey ((⟨[], []⟩ : ResourceDB).add sampleResource).1 (.str "1") (.str "A") =
      [⟨.str "1", .str "A", sampleResource⟩] ∧
    (((⟨[], []⟩ : ResourceDB).add sampleResource).1).add sampleResource =
      (((⟨[], []⟩ : ResourceDB).add sampleResource).1, none) ∧
    (((⟨[], []⟩ : ResourceDB).add sampleResource).1).add sampleResourceAlt =
      (((⟨[], []⟩ : ResourceDB).add sampleResource).1, none) :=
  resourcedb_add_first_write_wins ⟨[], []⟩ sampleResource sampleResourceAlt
    (.str "1") (.str "A") rfl rfl rfl rfl rfl

/-- On the cyclic graph, the loop on either singleton link list never
returns within any fuel bound: each call recurses into the other. -/
theorem process_links_loop_cyclic_none (fuel : Nat) (server : Server) (base : String)
    (pf : Nat) :
    (∀ frontier st,
      process_links_loop server base cyclicGraph pf fuel [⟨"A", "B", none, none⟩] frontier st = none) ∧
    (∀ frontier st,
      process_links_loop server base cyclicGraph pf fuel [⟨"B", "A", none, none⟩] frontier st = none) := by
  induction fuel with
  | zero => exact ⟨fun _ _ => rfl, fun _ _ => rfl⟩
  | succ n ih =>
    constructor
    · intro frontier st
      show (match process_links_loop server base cyclicGraph pf n [⟨"B", "A", none, none⟩]
              (st.db.all_resources (.str "B")) st with
            | none => none
            | some (.error e) => some (.error e)
            | some (.ok st2) =>
              process_links_loop server base cyclicGraph pf n [] frontier st2) = none
      rw [ih.2 (st.db.all_resources (.str "B")) st]
    · intro frontier st
      show (match process_links_loop server base cyclicGraph pf n [⟨"A", "B", none, none⟩]
              (st.db.all_resources (.str "A")) st with
            | none => none
            | some (.error e) => some (.error e)
            | some (.ok st2) =>
              process_links_loop server base cyclicGraph pf n [] frontier st2) = none
      rw [ih.1 (st.db.all_resources (.str "A")) st]

/-- C1.  The code does not terminate on a cyclic Graph Description: with
both Link A→B and Link B→A present, process_links diverges (the model
returns none at every fuel bound), because the recursion into a target's
outbound links is unconditional and is not guarded by the visited set. -/
theorem process_links_cyclic_diverges (server : Server) (base : String) (pf fuel : Nat)
    (frontier : List JObj) (st : RunState) :
    process_links server base cyclicGraph pf fuel "A" frontier st = none :=
  (process_links_loop_cyclic_none fuel server base pf).1 frontier st

/-- C9 counterexample.  A validation error is NOT contained to the single
insert: when a query returns a malformed resource, the ValueError raised
by ResourceDB.add propagates out of execute_query uncaught and aborts the
whole traversal run. -/
theorem validation_error_aborts_traversal_counterexample :
    process_links malformedServer "http://fhir" [sampleLink] 1 2 "A" [sampleResource] initialState =
      some (.error (.validation "Resource must contain 'id' and 'resourceType' fields.")) := rfl

/-- C9 (amended).  ResourceDB.add raises exactly when "id" or
"resourceType" is missing, in that case the store is unchanged, and the
error is not contained: a malformed resource at the head of a returned
page makes execute_query itself fail with the validation error. -/
theorem resourcedb_add_validation_behavior :
    (∀ (db : ResourceDB) (r : JObj),
      ((db.add r).2).isSome = true ↔
        (r.hasField "id" = false ∨ r.hasField "resourceType" = false)) ∧
    (∀ (db : ResourceDB) (r : JObj), ((db.add r).2).isSome = true → (db.add r).1 = db) ∧
    (∀ (server : Server) (fuel : Nat) (url : String) (st : RunState) (r : JObj)
       (rs : List JObj) (next : Option String),
      server url 0 = .page (r :: rs) next → wellFormedResource r = false →
      execute_query server (fuel + 1) url st =
        some (.error (.validation "Resource must contain 'id' and 'resourceType' fields."))) := by
  refine ⟨?_, ?_, ?_⟩
  · intro db r
    cases h1 : r.hasField "id" <;> cases h2 : r.hasField "resourceType" <;>
      simp only [ResourceDB.add, h1, h2] <;> simp <;> split <;> simp
  · intro db r h
    cases h1 : r.hasField "id" <;> cases h2 : r.hasField "resourceType"
    · simp [ResourceDB.add, h1, h2]
    · simp [ResourceDB.add, h1, h2]
    · simp [ResourceDB.add, h1, h2]
    · exfalso
      simp [ResourceDB.add, h1, h2] at h
      split at h <;> simp at h
  · intro server fuel url st r rs next hs hwf
    have hadd : ∀ db : ResourceDB, addEntries db (r :: rs) =
        .error (.validation "Resource must contain 'id' and 'resourceType' fields.") := by
      intro db
      have hw : (r.hasField "id" && r.hasField "resourceType") = false := hwf
      simp only [addEntries, ResourceDB.add, hw]
      simp
    show execute_query_loop server (fuel + 1) 3 0 url st = _
    simp only [execute_query_loop, hs, hadd]

/-- Witness for resourcedb_add_validation_behavior at concrete inputs. -/
theorem resourcedb_add_validation_behavior_witness :
    (((⟨[], []⟩ : ResourceDB).add malformedResource).2).isSome = true ∧
    ((⟨[], []⟩ : ResourceDB).add malformedResource).1 = ⟨[], []⟩ ∧
    execute_query malformedServer 1 "u" initialState =
      some (.error (.validation "Resource must contain 'id' and 'resourceType' fields.")) := by
  refine ⟨?_, ?_, ?_⟩
  · exact (resourcedb_add_validation_behavior.1 ⟨[], []⟩ malformedResource).mpr (Or.inl rfl)
  · exact resourcedb_add_validation_behavior.2.1 ⟨[], []⟩ malformedResource (by rfl)
  · exact resourcedb_add_validation_behavior.2.2 malformedServer 0 "u" initialState
      malformedResource [] none rfl rfl

/-- addEntries succeeds on a list of well-formed resources. -/
theorem addEntries_ok_of_wf (es : List JObj) :
    ∀ db : ResourceDB, (∀ r ∈ es, wellFormedResource r = true) →
    ∃ db', addEntries db es = .ok db' := by
  induction es with
  | nil => intro db _; exact ⟨db, rfl⟩
  | cons r rs ih =>
    intro db h
    have hw : (r.hasField "id" && r.hasField "resourceType") = true :=
      h r (List.mem_cons_self r rs)
    have hsnd : (db.add r).2 = none := by
      unfold ResourceDB.add
      rw [if_pos hw]
      dsimp only
      split <;> rfl
    have hstep : addEntries db (r :: rs) = addEntries (db.add r).1 rs := by
      simp only [addEntries]
      cases hadd : db.add r with
      | mk db1 err =>
        cases err with
        | none => rfl
        | some msg => rw [hadd] at hsnd; simp at hsnd
    rw [hstep]
    exact ih (db.add r).1 (fun x hx => h x (List.mem_cons_of_mem _ hx))

/-- C5.  Timeouts are retried on the same URL: three attempts with a
5-second sleep between them, then an empty result instead of an error;
a non-timeout failure propagates immediately; and with no non-timeout
failures (and well-formed pages) execute_query never errors. -/
theorem execute_query_retry_policy :
    (∀ (server : Server) (url : String) (st : RunState) (fuel : Nat),
      (∀ n, server url n = .timeout) →
      execute_query server (fuel + 3) url st =
        some (.ok ({ st with events := st.events ++
          [.get url, .sleep 5, .get url, .sleep 5, .get url, .sleep 5] }, []))) ∧
    (∀ (server : Server) (url : String) (st : RunState) (fuel code : Nat),
      server url 0 = .failure code →
      execute_query server (fuel + 1) url st = some (.error (.http code))) ∧
    (∀ server : Server,
      (∀ u n code, server u n ≠ .failure code) →
      (∀ u n es nx, server u n = .page es nx → ∀ r ∈ es, wellFormedResource r = true) →
      ∀ fuel tries attempt url st e,
        execute_query_loop server fuel tries attempt url st ≠ some (.error e)) := by
  refine ⟨?_, ?_, ?_⟩
  · intro server url st fuel h
    show execute_query_loop server (fuel + 3) 3 0 url st = _
    simp [execute_query_loop, h, logEvent, List.append_assoc]
  · intro server url st fuel code h
    show execute_query_loop server (fuel + 1) 3 0 url st = _
    simp [execute_query_loop, h]
  · intro server hnf hwf fuel
    induction fuel with
    | zero =>
      intro tries attempt url st e
      cases tries with
      | zero => simp [execute_query_loop]
      | succ t => simp [execute_query_loop]
    | succ n ih =>
      intro tries attempt url st e
      cases tries with
      | zero => simp [execute_query_loop]
      | succ t =>
        simp only [execute_query_loop]
        cases hb : server url attempt with
        | timeout =>
          simpa [hb] using ih t (attempt + 1) url (logEvent (logEvent st (.get url)) (.sleep 5)) e
        | failure code => exact absurd hb (hnf url attempt code)
        | page entries next =>
          dsimp only
          obtain ⟨db', hdb'⟩ :=
            addEntries_ok_of_wf entries (logEvent st (.get url)).db (hwf url attempt entries next hb)
          rw [hdb']
          cases next with
          | none => simp
          | some nurl =>
            cases hrec : execute_query_loop server n 3 0 nurl
                { db := db', visited := (logEvent st (.get url)).visited,
                  events := (logEvent st (.get url)).events } with
            | none => simp [hrec]
            | some res =>
              cases res with
              | error e' => exact absurd hrec (ih 3 0 nurl _ e')
              | ok p =>
                obtain ⟨st3, more⟩ := p
                simp [hrec]

/-- Witness for execute_query_retry_policy at concrete servers. -/
theorem execute_query_retry_policy_witness :
    execute_query timeoutServer 3 "u" initialState =
      some (.ok (⟨⟨[], []⟩, [],
        [.get "u", .sleep 5, .get "u", .sleep 5, .get "u", .sleep 5]⟩, [])) ∧
    execute_query failingServer 1 "u" initialState = some (.error (.http 500)) ∧
    execute_query_loop emptyPageServer 1 3 0 "u" initialState ≠ some (.error (.http 7)) := by
  refine ⟨?_, ?_, ?_⟩
  · have h := execute_query_retry_policy.1 timeoutServer "u" initialState 0 (fun n => rfl)
    simpa using h
  · exact execute_query_retry_policy.2.1 failingServer "u" initialState 0 500 rfl
  · refine execute_query_retry_policy.2.2 emptyPageServer
      (fun u n code => by simp [emptyPageServer]) ?_ 1 3 0 "u" initialState (.http 7)
    intro u n es nx h r hr
    simp only [emptyPageServer, Behavior.page.injEq] at h
    rw [← h.1] at hr
    cases hr

/-- ResourceDB.add never removes a stored key. -/
theorem add_hasKey_preserved (db : ResourceDB) (r : JObj) (i t : JValue)
    (h : db.hasKey i t = true) : ((db.add r).1).hasKey i t = true := by
  unfold ResourceDB.add
  split
  · dsimp only
    split
    · exact h
    · simp only [ResourceDB.hasKey, List.any_append] at h ⊢
      simp [h]
  · exact h

/-- A successful ResourceDB.add implies the resource was well-formed. -/
theorem add_none_wf (db : ResourceDB) (r : JObj) (h : (db.add r).2 = none) :
    wellFormedResource r = true := by
  by_contra hc
  have hf : (r.hasField "id" && r.hasField "resourceType") = false := by
    cases hx : (r.hasField "id" && r.hasField "resourceType")
    · rfl
    · exact absurd hx hc
  unfold ResourceDB.add at h
  rw [if_neg (by simp [hf])] at h
  cases h

/-- After ResourceDB.add of a well-formed resource its key is stored. -/
theorem add_self_hasKey (db : ResourceDB) (r : JObj) (hw : wellFormedResource r = true) :
    ((db.add r).1).hasKey ((r.lookup "id").getD .null)
      ((r.lookup "resourceType").getD .null) = true := by
  have hw' : (r.hasField "id" && r.hasField "resourceType") = true := hw
  unfold ResourceDB.add
  rw [if_pos hw']
  dsimp only
  split
  · assumption
  · simp [ResourceDB.hasKey, List.any_append]

/-- addEntries never removes a stored key. -/
theorem addEntries_hasKey_preserved (es : List JObj) :
    ∀ db db' : ResourceDB, addEntries db es = .ok db' →
    ∀ i t, db.hasKey i t = true → db'.hasKey i t = true := by
  induction es with
  | nil =>
    intro db db' h i t hk
    simp only [addEntries] at h
    cases h
    exact hk
  | cons r rs ih =>
    intro db db' h i t hk
    simp only [addEntries] at h
    cases hadd : db.add r with
    | mk db1 err =>
      rw [hadd] at h
      cases err with
      | none =>
        refine ih db1 db' h i t ?_
        have hpres := add_hasKey_preserved db r i t hk
        rwa [hadd] at hpres
      | some m => cases h

/-- Every entry of a successful addEntries run is stored afterwards. -/
theorem addEntries_mem_hasKey (es : List JObj) :
    ∀ db db' : ResourceDB, addEntries db es = .ok db' → ∀ r ∈ es,
      db'.hasKey ((r.lookup "id").getD .null)
        ((r.lookup "resourceType").getD .null) = true := by
  induction es with
  | nil => intro db db' h r hr; cases hr
  | cons x rs ih =>
    intro db db' h r hr
    simp only [addEntries] at h
    cases hadd : db.add x with
    | mk db1 err =>
      rw [hadd] at h
      cases err with
      | some m => cases h
      | none =>
        cases hr with
        | head =>
          have hwx : wellFormedResource x = true := by
            refine add_none_wf db x ?_
            rw [hadd]
          have hx := add_self_hasKey db x hwx
          rw [hadd] at hx
          exact addEntries_hasKey_preserved rs db1 db' h _ _ hx
        | tail _ hmem => exact ih db1 db' h r hmem

/-- C6.  Pagination completeness: a 3-page result set linked via "next"
is returned as one fully materialized list containing every page's
resources, and every returned resource is stored before the call
returns. -/
theorem execute_query_pagination_complete
    (e1 e2 e3 : List JObj) (fuel : Nat) (db : ResourceDB) (v : List VisitKey)
    (ev : List Event)
    (hwf : ∀ r ∈ e1 ++ e2 ++ e3, wellFormedResource r = true) :
    ∃ db', execute_query (threePageServer e1 e2 e3) (fuel + 3) "page1" ⟨db, v, ev⟩ =
        some (.ok (⟨db', v, ev ++ [.get "page1", .get "page2", .get "page3"]⟩,
          e1 ++ e2 ++ e3)) ∧
      ∀ r ∈ e1 ++ e2 ++ e3,
        db'.hasKey ((r.lookup "id").getD .null)
          ((r.lookup "resourceType").getD .null) = true := by
  obtain ⟨db1, h1⟩ := addEntries_ok_of_wf e1 db (fun r hr => hwf r (by simp [hr]))
  obtain ⟨db2, h2⟩ := addEntries_ok_of_wf e2 db1 (fun r hr => hwf r (by simp [hr]))
  obtain ⟨db3, h3⟩ := addEntries_ok_of_wf e3 db2 (fun r hr => hwf r (by simp [hr]))
  refine ⟨db3, ?_, ?_⟩
  · show execute_query_loop _ (fuel + 3) 3 0 "page1" _ = _
    simp only [execute_query_loop, threePageServer, logEvent]
    simp only [reduceIte]
    simp [h1, h2, h3, List.append_assoc]
  · intro r hr
    rcases List.mem_append.mp hr with hr' | hr3
    · rcases List.mem_append.mp hr' with hr1 | hr2
      · refine addEntries_hasKey_preserved e3 db2 db3 h3 _ _ ?_
        refine addEntries_hasKey_preserved e2 db1 db2 h2 _ _ ?_
        exact addEntries_mem_hasKey e1 db db1 h1 r hr1
      · refine addEntries_hasKey_preserved e3 db2 db3 h3 _ _ ?_
        exact addEntries_mem_hasKey e2 db1 db2 h2 r hr2
    · exact addEntries_mem_hasKey e3 db2 db3 h3 r hr3

/-- Witness for execute_query_pagination_complete at three concrete
one-resource pages. -/
theorem execute_query_pagination_complete_witness :
    ∃ db', execute_query
        (threePageServer [pageResource "1"] [pageResource "2"] [pageResource "3"])
        (0 + 3) "page1" ⟨⟨[], []⟩, [], []⟩ =
        some (.ok (⟨db', [], [] ++ [.get "page1", .get "page2", .get "page3"]⟩,
          [pageResource "1"] ++ [pageResource "2"] ++ [pageResource "3"])) ∧
      ∀ r ∈ [pageResource "1"] ++ [pageResource "2"] ++ [pageResource "3"],
        db'.hasKey ((r.lookup "id").getD .null)
          ((r.lookup "resourceType").getD .null) = true :=
  execute_query_pagination_complete [pageResource "1"] [pageResource "2"] [pageResource "3"]
    0 ⟨[], []⟩ [] [] (by decide)

/-- Chunking the empty list gives no chunks (range(0, 0, n) is empty). -/
theorem rangeChunks_nil {α : Type} (n : Nat) : rangeChunks ([] : List α) n = [] := by
  cases n with
  | zero => simp [rangeChunks]
  | succ m =>
    unfold rangeChunks
    have h : (([] : List α).length + (m + 1) - 1) / (m + 1) = 0 := by
      simp only [List.length_nil]
      exact Nat.div_eq_of_lt (by omega)
    rw [h]
    rfl

/-- Chunking a nonempty list takes one chunk and recurses on the rest. -/
theorem rangeChunks_cons {α : Type} (l : List α) (n : Nat) (hn : 0 < n) (hl : l ≠ []) :
    rangeChunks l n = l.take n :: rangeChunks (l.drop n) n := by
  have hlen : 0 < l.length := List.length_pos.mpr hl
  unfold rangeChunks
  have hcount : (l.length + n - 1) / n = ((l.drop n).length + n - 1) / n + 1 := by
    rw [List.length_drop]
    rcases le_or_lt l.length n with hle | hlt
    · have h1 : l.length - n = 0 := by omega
      have h2 : (0 + n - 1) / n = 0 := Nat.div_eq_of_lt (by omega)
      have h3 : (l.length + n - 1) / n = 1 := by
        refine Nat.div_eq_of_lt_le (by omega) (by omega)
      rw [h1, h2, h3]
    · have e1 : l.length - n + n - 1 = l.length - 1 := by omega
      have e2 : l.length + n - 1 = (l.length - 1) + n := by omega
      rw [e1, e2, Nat.add_div_right _ hn]
  rw [hcount, List.range_succ_eq_map]
  simp only [List.map_cons, Nat.zero_mul, List.drop_zero, List.map_map]
  congr 1
  congr 1
  funext j
  simp only [Function.comp]
  rw [List.drop_drop, Nat.succ_mul]
  congr 2
  omega

/-- The chunks of range(0, len, n) concatenate back to the list. -/
theorem flatten_rangeChunks {α : Type} (n : Nat) (hn : 0 < n) :
    ∀ (m : Nat) (l : List α), l.length ≤ m → (rangeChunks l n).flatten = l := by
  intro m
  induction m with
  | zero =>
    intro l h
    have hnil : l = [] := List.length_eq_zero.mp (Nat.le_zero.mp h)
    subst hnil
    simp [rangeChunks_nil]
  | succ m ih =>
    intro l h
    by_cases hl : l = []
    · subst hl; simp [rangeChunks_nil]
    · rw [rangeChunks_cons l n hn hl]
      simp only [List.flatten_cons]
      rw [ih (l.drop n) (by rw [List.length_drop]; omega)]
      exact List.take_append_drop n l

/-- C7.  Chunk correctness: 120 distinct candidate values with chunk size
50 yield exactly 3 chunks that are pairwise disjoint and concatenate back
to the whole candidate list (no repeats, no omissions). -/
theorem chunking_partition_120 {α : Type} (l : List α) (hlen : l.length = 120)
    (hnd : l.Nodup) :
    (mkChunks l).length = 3 ∧ (mkChunks l).flatten = l ∧
    List.Pairwise List.Disjoint (mkChunks l) := by
  have hgt : l.length > 50 := by omega
  have hm : mkChunks l = rangeChunks l 50 := by simp [mkChunks, hgt]
  have hflat : (mkChunks l).flatten = l := by
    rw [hm]
    exact flatten_rangeChunks 50 (by omega) l.length l le_rfl
  refine ⟨?_, hflat, ?_⟩
  · rw [hm]
    unfold rangeChunks
    rw [hlen]
    simp
  · have hnodup : (mkChunks l).flatten.Nodup := by rw [hflat]; exact hnd
    exact (List.nodup_flatten.mp hnodup).2

/-- Witness for chunking_partition_120 on the value list 0..119. -/
theorem chunking_partition_120_witness :
    (mkChunks (List.range 120)).length = 3 ∧
    (mkChunks (List.range 120)).flatten = List.range 120 ∧
    List.Pairwise List.Disjoint (mkChunks (List.range 120)) :=
  chunking_partition_120 (List.range 120) (by simp) (List.nodup_range 120)

/-- extractsOf distributes over append. -/
theorem extractsOf_append (a b : List Event) :
    extractsOf (a ++ b) = extractsOf a ++ extractsOf b := by
  simp [extractsOf]

/-- extractsOf recovers the keys of a pure extraction block. -/
theorem extractsOf_map_extract (l : List VisitKey) :
    extractsOf (l.map Event.extract) = l := by
  induction l with
  | nil => rfl
  | cons k ks ih => simp [extractsOf] at ih ⊢; exact ih

/-- TraceStep is reflexive. -/
theorem traceStep_refl (st : RunState) : TraceStep st st := by
  refine ⟨fun k hk => hk, [], by simp, by simp [extractsOf], ?_⟩
  intro k hk
  simp [extractsOf] at hk

/-- TraceStep composes. -/
theorem traceStep_trans {st1 st2 st3 : RunState}
    (h12 : TraceStep st1 st2) (h23 : TraceStep st2 st3) : TraceStep st1 st3 := by
  obtain ⟨m12, new1, he1, hn1, hp1⟩ := h12
  obtain ⟨m23, new2, he2, hn2, hp2⟩ := h23
  refine ⟨fun k hk => m23 k (m12 k hk), new1 ++ new2,
    by rw [he2, he1, List.append_assoc], ?_, ?_⟩
  · rw [extractsOf_append]
    refine List.Nodup.append hn1 hn2 ?_
    intro k hk1 hk2
    exact (hp2 k hk2).1 ((hp1 k hk1).2)
  · intro k hk
    rw [extractsOf_append] at hk
    rcases List.mem_append.mp hk with hmem | hmem
    · exact ⟨(hp1 k hmem).1, m23 k (hp1 k hmem).2⟩
    · exact ⟨fun hv => (hp2 k hmem).1 (m12 k hv), (hp2 k hmem).2⟩

/-- A step that keeps the visited set and appends no extraction events is
a TraceStep. -/
theorem traceStep_of_appended {st st' : RunState} (h : st'.visited = st.visited)
    (hev : ∃ new, st'.events = st.events ++ new ∧ extractsOf new = []) :
    TraceStep st st' := by
  obtain ⟨new, he, hx⟩ := hev
  refine ⟨fun k hk => by rw [h]; exact hk, new, he, by rw [hx]; exact List.nodup_nil, ?_⟩
  intro k hk
  rw [hx] at hk
  cases hk

/-- execute_query_loop never touches the visited set and logs no
extraction events. -/
theorem execute_query_loop_trace (server : Server) :
    ∀ (fuel tries attempt : Nat) (url : String) (st st' : RunState) (rs : List JObj),
      execute_query_loop server fuel tries attempt url st = some (.ok (st', rs)) →
      st'.visited = st.visited ∧
      ∃ new, st'.events = st.events ++ new ∧ extractsOf new = [] := by
  intro fuel
  induction fuel with
  | zero =>
    intro tries attempt url st st' rs h
    cases tries with
    | zero =>
      simp only [execute_query_loop] at h
      cases h
      exact ⟨rfl, [], by simp, rfl⟩
    | succ t =>
      simp only [execute_query_loop] at h
      exact Option.noConfusion h
  | succ n ih =>
    intro tries attempt url st st' rs h
    cases tries with
    | zero =>
      simp only [execute_query_loop] at h
      cases h
      exact ⟨rfl, [], by simp, rfl⟩
    | succ t =>
      simp only [execute_query_loop] at h
      cases hb : server url attempt with
      | timeout =>
        rw [hb] at h
        dsimp only at h
        obtain ⟨hv, new, hev, hx⟩ := ih t (attempt + 1) url _ st' rs h
        refine ⟨by simpa [logEvent] using hv, [.get url, .sleep 5] ++ new, ?_, ?_⟩
        · rw [hev]
          simp [logEvent, List.append_assoc]
        · rw [extractsOf_append, hx]
          rfl
      | failure code =>
        rw [hb] at h
        dsimp only at h
        cases h
      | page entries next =>
        rw [hb] at h
        dsimp only at h
        cases hadd : addEntries (logEvent st (.get url)).db entries with
        | error e => rw [hadd] at h; cases h
        | ok db' =>
          rw [hadd] at h
          cases next with
          | none =>
            dsimp only at h
            cases h
            exact ⟨rfl, [.get url], by simp [logEvent], rfl⟩
          | some nurl =>
            dsimp only at h
            cases hrec : execute_query_loop server n 3 0 nurl
                { db := db', visited := (logEvent st (.get url)).visited,
                  events := (logEvent st (.get url)).events } with
            | none => rw [hrec] at h; cases h
            | some res =>
              cases res with
              | error e => rw [hrec] at h; cases h
              | ok p =>
                obtain ⟨st3, more⟩ := p
                rw [hrec] at h
                cases h
                obtain ⟨hv, new, hev, hx⟩ := ih 3 0 nurl _ _ _ hrec
                refine ⟨by simpa [logEvent] using hv, [.get url] ++ new, ?_, ?_⟩
                · rw [hev]
                  simp [logEvent, List.append_assoc]
                · rw [extractsOf_append, hx]
                  rfl

/-- dispatch_chunks never touches the visited set and logs no extraction
events. -/
theorem dispatch_chunks_trace (server : Server) (base : String) (pf : Nat)
    (link : Link) (params : String) :
    ∀ (chunks : List (List JValue)) (st st' : RunState),
      dispatch_chunks server base pf link params chunks st = some (.ok st') →
      st'.visited = st.visited ∧
      ∃ new, st'.events = st.events ++ new ∧ extractsOf new = [] := by
  intro chunks
  induction chunks with
  | nil =>
    intro st st' h
    simp only [dispatch_chunks] at h
    cases h
    exact ⟨rfl, [], by simp, rfl⟩
  | cons c cs ih =>
    intro st st' h
    simp only [dispatch_chunks] at h
    cases hq : execute_query server pf (chunk_query_url base link params c)
        (logEvent st (.dispatch (chunk_query_url base link params c))) with
    | none => rw [hq] at h; cases h
    | some res =>
      cases res with
      | error e => rw [hq] at h; cases h
      | ok p =>
        obtain ⟨st1, rs⟩ := p
        rw [hq] at h
        dsimp only at h
        obtain ⟨hv1, new1, hev1, hx1⟩ :=
          execute_query_loop_trace server pf 3 0 (chunk_query_url base link params c) _ _ _ hq
        obtain ⟨hv2, new2, hev2, hx2⟩ := ih st1 st' h
        refine ⟨by rw [hv2]; simpa [logEvent] using hv1, [.dispatch (chunk_query_url base link params c)] ++ new1 ++ new2, ?_, ?_⟩
        · rw [hev2, hev1]
          simp [logEvent, List.append_assoc]
        · rw [extractsOf_append, extractsOf_append, hx1, hx2]
          rfl

/-- The frontier scan grows the visited set monotonically and extracts a
join key only from resources that were unvisited at their turn: the new
extraction log entries are pairwise distinct, were not visited before the
scan, and are visited after it. -/
theorem collect_current_path_spec (link : Link) :
    ∀ (frontier : List JObj) (visited : List VisitKey) (cp : List JValue)
      (ext visited' : List VisitKey) (cp' : List JValue) (ext' : List VisitKey),
      collect_current_path link frontier visited cp ext = .ok (visited', cp', ext') →
      (∀ k, k ∈ visited → k ∈ visited') ∧
      ∃ new, ext' = ext ++ new ∧ new.Nodup ∧
        ∀ k ∈ new, k ∉ visited ∧ k ∈ visited' := by
  intro frontier
  induction frontier with
  | nil =>
    intro visited cp ext visited' cp' ext' h
    simp only [collect_current_path] at h
    cases h
    refine ⟨fun k hk => hk, [], by simp, by simp, ?_⟩
    intro k hk
    cases hk
  | cons r rest ih =>
    intro visited cp ext visited' cp' ext' h
    simp only [collect_current_path] at h
    by_cases htype : ((r.lookup "resourceType").getD .null == JValue.str link.sourceId) = true
    · rw [if_pos htype] at h
      by_cases hv : (visited.contains
          (JValue.str link.sourceId, (r.lookup "id").getD .null, link.targetId)) = true
      · rw [if_pos hv] at h
        exact ih visited cp ext visited' cp' ext' h
      · rw [if_neg hv] at h
        have hkey : (JValue.str link.sourceId, (r.lookup "id").getD .null, link.targetId)
            ∉ visited := by
          intro hmem
          exact hv (List.elem_eq_true_of_mem hmem)
        cases hp : link.path with
        | none => rw [hp] at h; cases h
        | some p =>
          rw [hp] at h
          dsimp only at h
          cases hdg : dottyGet (splitOnChar '.' p)
              (.obj (.cons link.sourceId (.obj r) .nil)) with
          | none =>
            rw [hdg] at h
            obtain ⟨hm, new, hext, hnod, hprop⟩ := ih _ _ _ visited' cp' ext' h
            refine ⟨fun k hk => hm k (List.mem_cons_of_mem _ hk), new, hext, hnod, ?_⟩
            intro k hk
            exact ⟨fun hkv => (hprop k hk).1 (List.mem_cons_of_mem _ hkv), (hprop k hk).2⟩
          | some v =>
            rw [hdg] at h
            obtain ⟨hm, new2, hext, hnod, hprop⟩ := ih _ _ _ visited' cp' ext' h
            refine ⟨fun k hk => hm k (List.mem_cons_of_mem _ hk),
              (JValue.str link.sourceId, (r.lookup "id").getD .null, link.targetId) :: new2,
              ?_, ?_, ?_⟩
            · rw [hext]
              simp
            · refine List.nodup_cons.mpr ⟨?_, hnod⟩
              intro hmem
              exact (hprop _ hmem).1 (List.mem_cons_self _ _)
            · intro k hk
              rcases List.mem_cons.mp hk with hkeq | hkmem
              · subst hkeq
                exact ⟨hkey, hm _ (List.mem_cons_self _ _)⟩
              · exact ⟨fun hkv => (hprop k hkmem).1 (List.mem_cons_of_mem _ hkv),
                  (hprop k hkmem).2⟩
    · rw [if_neg htype] at h
      exact ih visited cp ext visited' cp' ext' h

/-- Processing one link is a TraceStep: the new extractions are exactly
the frontier keys newly marked visited. -/
theorem process_one_link_traceStep (server : Server) (base : String) (pf : Nat)
    (link : Link) (frontier : List JObj) (st st' : RunState)
    (h : process_one_link server base pf link frontier st = some (.ok st')) :
    TraceStep st st' := by
  unfold process_one_link at h
  cases hp : link.params with
  | none =>
    rw [hp] at h
    cases h
    exact traceStep_refl _
  | some params =>
    rw [hp] at h
    cases hc : collect_current_path link frontier st.visited [] [] with
    | error e => rw [hc] at h; cases h
    | ok triple =>
      obtain ⟨visited', cp, extracted⟩ := triple
      rw [hc] at h
      dsimp only at h
      obtain ⟨hm, new, hext, hnod, hprop⟩ :=
        collect_current_path_spec link frontier st.visited [] [] visited' cp extracted hc
      have hnew : extracted = new := by simpa using hext
      obtain ⟨hv2, new2, hev2, hx2⟩ :=
        dispatch_chunks_trace server base pf link params (mkChunks cp)
          { st with visited := visited', events := st.events ++ extracted.map Event.extract }
          st' h
      have step1 : TraceStep st
          { st with visited := visited', events := st.events ++ extracted.map Event.extract } := by
        refine ⟨fun k hk => hm k hk, extracted.map Event.extract, rfl, ?_, ?_⟩
        · rw [extractsOf_map_extract, hnew]
          exact hnod
        · rw [extractsOf_map_extract]
          intro k hk
          rw [hnew] at hk
          exact hprop k hk
      have step2 : TraceStep
          { st with visited := visited', events := st.events ++ extracted.map Event.extract }
          st' := traceStep_of_appended hv2 ⟨new2, hev2, hx2⟩
      exact traceStep_trans step1 step2

/-- The link loop of process_links is a TraceStep at every fuel. -/
theorem process_links_loop_traceStep (server : Server) (base : String)
    (graph : List Link) (pf : Nat) :
    ∀ (fuel : Nat) (links : List Link) (frontier : List JObj) (st st' : RunState),
      process_links_loop server base graph pf fuel links frontier st = some (.ok st') →
      TraceStep st st' := by
  intro fuel
  induction fuel with
  | zero =>
    intro links frontier st st' h
    simp only [process_links_loop] at h
    exact Option.noConfusion h
  | succ n ih =>
    intro links frontier st st' h
    cases links with
    | nil =>
      simp only [process_links_loop] at h
      cases h
      exact traceStep_refl _
    | cons link rest =>
      simp only [process_links_loop] at h
      cases h1 : process_one_link server base pf link frontier st with
      | none => rw [h1] at h; cases h
      | some res =>
        cases res with
        | error e => rw [h1] at h; cases h
        | ok st1 =>
          rw [h1] at h
          dsimp only at h
          have hs1 : TraceStep st st1 :=
            process_one_link_traceStep server base pf link frontier st st1 h1
          by_cases he : ((graph.filter fun e => e.sourceId == link.targetId).isEmpty) = true
          · rw [if_pos he] at h
            exact traceStep_trans hs1 (ih rest frontier st1 st' h)
          · rw [if_neg he] at h
            cases h2 : process_links_loop server base graph pf n
                (graph.filter fun e => e.sourceId == link.targetId)
                (st1.db.all_resources (.str link.targetId)) st1 with
            | none => rw [h2] at h; cases h
            | some res2 =>
              cases res2 with
              | error e => rw [h2] at h; cases h
              | ok st2 =>
                rw [h2] at h
                dsimp only at h
                exact traceStep_trans hs1
                  (traceStep_trans (ih _ _ st1 st2 h2) (ih rest frontier st2 st' h))

/-- C2.  Visit-once: in a traversal run started with an empty trace, the
join-key extraction log has no duplicate Visit Record, no initially
visited record is ever extracted, and every extracted record ends up in
the visited set. -/
theorem process_links_visit_once
    (server : Server) (base : String) (graph : List Link) (pf fuel : Nat)
    (parent_target_id : String) (frontier : List JObj) (db : ResourceDB)
    (v0 : List VisitKey) (st' : RunState)
    (h : process_links server base graph pf fuel parent_target_id frontier ⟨db, v0, []⟩ =
      some (.ok st')) :
    (extractsOf st'.events).Nodup ∧
    ∀ k ∈ extractsOf st'.events, k ∉ v0 ∧ k ∈ st'.visited := by
  obtain ⟨hm, new, hev, hnod, hprop⟩ :=
    process_links_loop_traceStep server base graph pf fuel _ frontier ⟨db, v0, []⟩ st' h
  have hne : st'.events = new := by simpa using hev
  rw [hne]
  exact ⟨hnod, hprop⟩

/-- Witness for process_links_visit_once on a concrete one-link run. -/
theorem process_links_visit_once_witness :
    (extractsOf (⟨⟨[], []⟩, [(.str "A", .str "1", "B")],
      [.extract (.str "A", .str "1", "B"), .dispatch "http://f/B?subject=X",
       .get "http://f/B?subject=X"]⟩ : RunState).events).Nodup ∧
    ∀ k ∈ extractsOf (⟨⟨[], []⟩, [(.str "A", .str "1", "B")],
      [.extract (.str "A", .str "1", "B"), .dispatch "http://f/B?subject=X",
       .get "http://f/B?subject=X"]⟩ : RunState).events,
      k ∉ ([] : List VisitKey) ∧
      k ∈ (⟨⟨[], []⟩, [(.str "A", .str "1", "B")],
        [.extract (.str "A", .str "1", "B"), .dispatch "http://f/B?subject=X",
         .get "http://f/B?subject=X"]⟩ : RunState).visited :=
  process_links_visit_once emptyPageServer "http://f" [sampleLink] 1 2 "A"
    [sampleResource] ⟨[], []⟩ [] _ rfl

/-- C10.  A frontier resource is marked visited before path extraction is
attempted: when the path is absent the scan still records the Visit
Record (contributing no candidate and no extraction), and any Visit
Record present in the visited set is never extracted by the rest of the
run. -/
theorem visited_marked_before_extraction :
    (∀ (link : Link) (r : JObj) (rest : List JObj) (visited : List VisitKey)
       (cp : List JValue) (ext : List VisitKey) (p : String),
      ((r.lookup "resourceType").getD .null == JValue.str link.sourceId) = true →
      (visited.contains
        (JValue.str link.sourceId, (r.lookup "id").getD .null, link.targetId)) = false →
      link.path = some p →
      dottyGet (splitOnChar '.' p) (.obj (.cons link.sourceId (.obj r) .nil)) = none →
      collect_current_path link (r :: rest) visited cp ext =
        collect_current_path link rest
          ((JValue.str link.sourceId, (r.lookup "id").getD .null, link.targetId) :: visited)
          cp ext) ∧
    (∀ (server : Server) (base : String) (graph : List Link) (pf fuel : Nat)
       (links : List Link) (frontier : List JObj) (st st' : RunState)
       (new : List Event) (k : VisitKey),
      k ∈ st.visited →
      process_links_loop server base graph pf fuel links frontier st = some (.ok st') →
      st'.events = st.events ++ new →
      k ∉ extractsOf new) := by
  constructor
  · intro link r rest visited cp ext p htype hv hp hdg
    conv_lhs => rw [collect_current_path]
    rw [if_pos htype, if_neg (by rw [hv]; exact Bool.false_ne_true), hp]
    dsimp only
    rw [hdg]
  · intro server base graph pf fuel links frontier st st' new k hk h hev
    obtain ⟨hm, new', hev', hnod, hprop⟩ :=
      process_links_loop_traceStep server base graph pf fuel links frontier st st' h
    have hsame : new = new' := by
      rw [hev] at hev'
      exact List.append_cancel_left hev'
    intro hkx
    rw [hsame] at hkx
    exact (hprop k hkx).1 hk

/-- Witness for visited_marked_before_extraction: a pathless resource is
marked visited, and an already visited record is not extracted by a
subsequent run. -/
theorem visited_marked_before_extraction_witness :
    collect_current_path sampleLink [pathlessResource] [] [] [] =
      collect_current_path sampleLink []
        [(JValue.str "A", (pathlessResource.lookup "id").getD .null, "B")] [] [] ∧
    (JValue.str "A", JValue.str "1", "B") ∉ extractsOf
      [.dispatch "http://f/B?subject=", .get "http://f/B?subject="] := by
  constructor
  · exact visited_marked_before_extraction.1 sampleLink pathlessResource [] [] [] [] "A.f"
      rfl rfl rfl rfl
  · exact visited_marked_before_extraction.2 emptyPageServer "http://f" [sampleLink] 1 2
      [sampleLink] [sampleResource]
      ⟨⟨[], []⟩, [(.str "A", .str "1", "B")], []⟩
      ⟨⟨[], []⟩, [(.str "A", .str "1", "B")],
        [.dispatch "http://f/B?subject=", .get "http://f/B?subject="]⟩
      [.dispatch "http://f/B?subject=", .get "http://f/B?subject="]
      (.str "A", .str "1", "B")
      (List.mem_cons_self _ _) rfl rfl

/-- C3 counterexample.  With an empty candidate set (the path is absent on
the only frontier resource) the engine does NOT skip the link: it
dispatches exactly one query, with the placeholder replaced by the empty
string, and completes without error. -/
theorem empty_candidates_still_query_counterexample :
    process_links emptyPageServer "http://f" [sampleLink] 1 2 "A" [pathlessResource]
      initialState =
      some (.ok ⟨⟨[], []⟩, [(.str "A", .str "1", "B")],
        [.dispatch "http://f/B?subject=", .get "http://f/B?subject="]⟩) ∧
    dispatchesOf [.dispatch "http://f/B?subject=", .get "http://f/B?subject="] =
      ["http://f/B?subject="] :=
  ⟨rfl, rfl⟩

/-- Against a server answering a single empty page, execute_query returns
after one GET with no resources. -/
theorem execute_query_empty_page (server : Server)
    (h : ∀ u n, server u n = .page [] none) (pf : Nat) (url : String) (st : RunState) :
    execute_query server (pf + 1) url st = some (.ok (logEvent st (.get url), [])) := by
  show execute_query_loop server (pf + 1) 3 0 url st = _
  simp [execute_query_loop, h, addEntries]

/-- Extraction events contribute no dispatches. -/
theorem dispatchesOf_map_extract_append (l : List VisitKey) (rest : List Event) :
    dispatchesOf (l.map Event.extract ++ rest) = dispatchesOf rest := by
  induction l with
  | nil => simp
  | cons k ks ih => simpa [dispatchesOf] using ih

/-- C3 (amended).  When the candidate join-key set of a link with params
is empty, process_links still dispatches exactly one query for that link
— the chunk list defaults to the single empty chunk, so the params
placeholder is replaced by the empty string — and the traversal continues
without error. -/
theorem empty_candidates_one_query
    (server : Server) (base : String) (pf : Nat) (link : Link) (params : String)
    (frontier : List JObj) (st : RunState) (visited' extracted : List VisitKey)
    (hp : link.params = some params)
    (hc : collect_current_path link frontier st.visited [] [] = .ok (visited', [], extracted))
    (hs : ∀ u n, server u n = .page [] none) :
    process_one_link server base (pf + 1) link frontier st =
      some (.ok { st with
        visited := visited',
        events := st.events ++ extracted.map Event.extract ++
          [.dispatch (chunk_query_url base link params []),
           .get (chunk_query_url base link params [])] }) ∧
    dispatchesOf (extracted.map Event.extract ++
        [.dispatch (chunk_query_url base link params []),
         .get (chunk_query_url base link params [])]) =
      [chunk_query_url base link params []] ∧
    chunk_query_url base link params [] =
      base ++ "/" ++ link.targetId ++ "?" ++ strReplace params "{path}" "" := by
  refine ⟨?_, ?_, rfl⟩
  · unfold process_one_link
    rw [hp]
    dsimp only
    rw [hc]
    dsimp only
    show dispatch_chunks server base (pf + 1) link params [[]]
      { st with
        visited := visited',
        events := st.events ++ extracted.map Event.extract } = _
    simp only [dispatch_chunks]
    rw [execute_query_empty_page server hs pf]
    simp only [dispatch_chunks]
    simp [logEvent, List.append_assoc]
  · rw [dispatchesOf_map_extract_append]
    rfl

/-- Witness for empty_candidates_one_query on the pathless frontier. -/
theorem empty_candidates_one_query_witness :
    process_one_link emptyPageServer "http://f" (0 + 1) sampleLink
      [pathlessResource] initialState =
      some (.ok { initialState with
        visited := [(JValue.str "A", JValue.str "1", "B")],
        events := initialState.events ++
          ([] : List VisitKey).map Event.extract ++
          [.dispatch (chunk_query_url "http://f" sampleLink "subject={path}" []),
           .get (chunk_query_url "http://f" sampleLink "subject={path}" [])] }) ∧
    dispatchesOf (([] : List VisitKey).map Event.extract ++
        [.dispatch (chunk_query_url "http://f" sampleLink "subject={path}" []),
         .get (chunk_query_url "http://f" sampleLink "subject={path}" [])]) =
      [chunk_query_url "http://f" sampleLink "subject={path}" []] ∧
    chunk_query_url "http://f" sampleLink "subject={path}" [] =
      "http://f" ++ "/" ++ sampleLink.targetId ++ "?" ++
        strReplace "subject={path}" "{path}" "" :=
  empty_candidates_one_query emptyPageServer "http://f" 0 sampleLink "subject={path}"
    [pathlessResource] initialState [(JValue.str "A", JValue.str "1", "B")] []
    rfl rfl (fun u n => rfl)
